import Mathlib

/-!
Shallow embedding of the insurance-policy processing worker
(`src/index.js`, version 2.2.0) and verification of its specification
claims.

Modelling conventions:
* JS strings are modelled as Lean `String` / `List Char`.  All characters
  used by the worker (Hebrew block, currency signs, bidi marks) lie in the
  Basic Multilingual Plane, so JS UTF-16 indices coincide with character
  indices; positions are `Nat` character offsets.
* JS regular expressions are hand-compiled, pattern by pattern, into
  scanners over `List Char`.  Greedy repetition is implemented directly;
  wherever the JS backtracking engine could retry a shorter repetition the
  surrounding character classes are disjoint, so the greedy choice is the
  unique candidate (noted at each matcher).  Alternations and optional
  groups that genuinely need the continuation-retry order of JS are
  implemented as ordered alternative lists.
* Page numbers in this pipeline are constructed as `pageTexts` index + 1
  (with a `|| 1` fallback), hence naturals; JS truthiness of a page is
  `page ≠ 0`.
* Objects that may lack a field (`amounts = {}`) are `Option`s, `none`
  standing for the empty object.
-/

namespace InsuranceWorker

/-! ### JS string primitives -/

/-- JS `\s` (and the character set removed by `String.prototype.trim`). -/
def isJsSpace (c : Char) : Bool :=
  c == ' ' || c == '\t' || c == '\n' || c.val == 0x0B || c.val == 0x0C ||
  c == '\r' || c.val == 0xA0 || c.val == 0x1680 ||
  (0x2000 ≤ c.val && c.val ≤ 0x200A) || c.val == 0x2028 || c.val == 0x2029 ||
  c.val == 0x202F || c.val == 0x205F || c.val == 0x3000 || c.val == 0xFEFF

/-- JS `\d` (no `u` flag): the ASCII digits. -/
def isDigitCh (c : Char) : Bool := '0' ≤ c && c ≤ '9'

/-- The Hebrew letter block `א-ת` used by the worker's patterns. -/
def isHebrewCh (c : Char) : Bool := 0x05D0 ≤ c.val && c.val ≤ 0x05EA

/-- ASCII lowering; models JS `toLowerCase` on the worker's data (Hebrew
letters and symbols are caseless, so only ASCII letters change). -/
def lowerCh (c : Char) : Char :=
  if 'A' ≤ c && c ≤ 'Z' then Char.ofNat (c.toNat + 32) else c

/-- Lowercase a whole string (JS `toLowerCase`). -/
def jsToLower (s : String) : String := String.mk (s.data.map lowerCh)

/-- Substring test on character lists (`String.prototype.includes`).
JS `includes('')` is `true`; so is this (empty list is a prefix). -/
def listIncl (needle : List Char) : List Char → Bool
  | [] => needle.isEmpty
  | c :: rest => List.isPrefixOf needle (c :: rest) || listIncl needle rest

/-- JS `hay.includes(needle)`. -/
def jsIncludes (hay needle : String) : Bool := listIncl needle.data hay.data

/-- First index of `needle` in `hay` (JS `indexOf`), `none` for -1.
JS `indexOf('')` is 0; so is this. -/
def listIndexOf (needle : List Char) : List Char → Option Nat
  | [] => if needle.isEmpty then some 0 else none
  | c :: rest =>
    if List.isPrefixOf needle (c :: rest) then some 0
    else (listIndexOf needle rest).map (· + 1)

/-- JS `hay.indexOf(needle)` as an `Option Nat`. -/
def jsIndexOf (hay needle : String) : Option Nat :=
  listIndexOf needle.data hay.data

/-- JS `String.prototype.trim` on a character list. -/
def jsTrimList (cs : List Char) : List Char :=
  ((cs.dropWhile isJsSpace).reverse.dropWhile isJsSpace).reverse

/-- JS `String.prototype.trim`. -/
def jsTrim (s : String) : String := String.mk (jsTrimList s.data)

/-- Keyword hit as the worker tests it everywhere:
`text.includes(kw) || lowerText.includes(kw)`. -/
def kwHit (text kw : String) : Bool :=
  jsIncludes text kw || jsIncludes (jsToLower text) kw

/-- Case-sensitive literal at the head of the input; returns the rest. -/
def dropLitCS : List Char → List Char → Option (List Char)
  | [], cs => some cs
  | _ :: _, [] => none
  | l :: ls, c :: cs => if c == l then dropLitCS ls cs else none

/-- Case-insensitive literal at the head of the input (JS `/i` flag,
ASCII folding; the worker's literals are ASCII or caseless Hebrew). -/
def dropLitCI : List Char → List Char → Option (List Char)
  | [], cs => some cs
  | _ :: _, [] => none
  | l :: ls, c :: cs => if lowerCh c == lowerCh l then dropLitCI ls cs else none

/-- Greedy `p*`: longest prefix satisfying `p`, and the rest. -/
def spanTake (p : Char → Bool) : List Char → List Char × List Char
  | [] => ([], [])
  | c :: rest =>
    if p c then
      let (t, r) := spanTake p rest
      (c :: t, r)
    else ([], c :: rest)

/-- Greedy `p+`: `none` when the first character fails `p`. -/
def span1 (p : Char → Bool) (cs : List Char) : Option (List Char × List Char) :=
  match cs with
  | [] => none
  | c :: _ => if p c then some (spanTake p cs) else none

/-! ### Data model (§3 of the spec, `src/index.js` record shapes) -/

/-- One entry of `amounts.values`: `{raw, numeric, position}`
(`extractAmounts`, src/index.js 908-916).  `numeric` is modelled as an
exact rational; every numeric matched by the amount patterns is a decimal
with at most two fraction digits. -/
structure AmountValue where
  raw : String
  numeric : ℚ
  position : Nat
  deriving DecidableEq, Repr

/-- The two `value_state` strings of the worker. -/
inductive ValueState where
  | known
  | unknown_schedule_required
  deriving DecidableEq, Repr

/-- The `amounts` object when it carries a `value_state` field. -/
structure Amounts where
  value_state : ValueState
  values : List AmountValue
  deriving DecidableEq, Repr

/-- An evidence span as the validator and deduplicator consume it.
`enrichEvidenceSpan` attaches further citation payload
(section path, heading, context, …); none of it is read by the
deduplication, capping or validation logic, so it is omitted here. -/
structure EvidenceSpan where
  document_id : String
  page : Nat
  quote : String
  deriving DecidableEq, Repr

/-- A benefit record (`extractBenefits`, src/index.js 1131-1144).
`evidence_spans` is `benefit.evidence_set.spans`; `amounts = none` models
the empty object `{}`; `eligibility` is an opaque payload never inspected
by the core, kept as a string. -/
structure Benefit where
  benefit_id : String
  layer : String
  title : String
  summary : String
  status : String
  evidence_spans : List EvidenceSpan
  tags : List String
  eligibility : String
  amounts : Option Amounts
  actionable_steps : List String
  deriving DecidableEq, Repr

/-! ### Amount extraction (`hasAmountReference`, `extractAmounts`) -/

/-- `AMOUNT_KEYWORDS.hebrew` (src/index.js 117-121). -/
def AMOUNT_KEYWORDS_hebrew : List String :=
  ["₪", "ש\"ח", "שקל", "שקלים",
   "סכום", "תקרה", "מקסימום", "עד לסכום",
   "השתתפות עצמית", "דמי השתתפות"]

/-- `AMOUNT_KEYWORDS.english` (src/index.js 122-126). -/
def AMOUNT_KEYWORDS_english : List String :=
  ["$", "€", "£", "USD", "ILS", "NIS",
   "amount", "maximum", "limit", "up to",
   "deductible", "copay", "co-payment"]

/-- One attempt, at the head of the input, of the test regex
`[\d,]+\.?\d*\s*(?:₪|ש"ח|שקל|\$|€|£)` of `hasAmountReference`
(src/index.js 156).  Greedy choices only: after any shorter choice of
`[\d,]+`, `\.?` or `\d*` the next character is a digit, comma or dot,
which can satisfy neither `\s*`-then-currency, so JS backtracking can
never turn this failure into a match. -/
def amountTestAt (cs : List Char) : Bool :=
  match span1 (fun c => isDigitCh c || c == ',') cs with
  | none => false
  | some (_, r1) =>
    let r2 := match r1 with
      | '.' :: rest => rest
      | _ => r1
    let (_, r3) := spanTake isDigitCh r2
    let (_, r4) := spanTake isJsSpace r3
    ["₪", "ש\"ח", "שקל", "$", "€", "£"].any fun lit => (dropLitCS lit.data r4).isSome

/-- `regex.test`: some start position matches. -/
def amountNumTest : List Char → Bool
  | [] => false
  | c :: cs => amountTestAt (c :: cs) || amountNumTest cs

/-- `hasAmountReference` (src/index.js 145-158): any amount keyword in the
raw or lowercased text, or the numeric-currency test pattern. -/
def hasAmountReference (text : String) : Bool :=
  if text = "" then false
  else
    (AMOUNT_KEYWORDS_hebrew ++ AMOUNT_KEYWORDS_english).any (kwHit text) ||
      amountNumTest text.data

/-- Greedy `\d{1,3}`: one to three digits (src/index.js amount patterns).
A shorter choice leaves a digit as the next character, which no
continuation of these patterns accepts, so greedy-only is faithful. -/
def numHead : List Char → Option (List Char × List Char)
  | [] => none
  | c1 :: r1 =>
    if isDigitCh c1 then
      match r1 with
      | c2 :: r2 =>
        if isDigitCh c2 then
          match r2 with
          | c3 :: r3 =>
            if isDigitCh c3 then some ([c1, c2, c3], r3) else some ([c1, c2], r2)
          | [] => some ([c1, c2], [])
        else some ([c1], r1)
      | [] => some ([c1], [])
    else none

/-- Greedy `(?:,\d{3})*`: comma plus exactly three digits, repeated.
Dropping a repetition leaves a comma as the next character, which no
continuation accepts, so greedy-only is faithful. -/
def numStarGroups : List Char → List Char × List Char
  | ',' :: d1 :: d2 :: d3 :: rest =>
    if isDigitCh d1 && isDigitCh d2 && isDigitCh d3 then
      let (t, r) := numStarGroups rest
      (',' :: d1 :: d2 :: d3 :: t, r)
    else ([], ',' :: d1 :: d2 :: d3 :: rest)
  | cs => ([], cs)

/-- Greedy `(?:\.\d{2})?`; skipping it leaves a dot as the next character,
which no continuation accepts, so greedy-only is faithful. -/
def numFrac : List Char → List Char × List Char
  | '.' :: d1 :: d2 :: rest =>
    if isDigitCh d1 && isDigitCh d2 then (['.', d1, d2], rest)
    else ([], '.' :: d1 :: d2 :: rest)
  | cs => ([], cs)

/-- The shared capture group `(\d{1,3}(?:,\d{3})*(?:\.\d{2})?)` of the
three `amountPatterns` (src/index.js 902-906): matched characters and rest. -/
def matchJsNumber (cs : List Char) : Option (List Char × List Char) :=
  match numHead cs with
  | none => none
  | some (h, r1) =>
    let (g, r2) := numStarGroups r1
    let (f, r3) := numFrac r2
    some (h ++ g ++ f, r3)

/-- Digit run to a natural number. -/
def digitsToNat (cs : List Char) : Nat :=
  cs.foldl (fun a c => a * 10 + (c.toNat - 48)) 0

/-- `parseFloat(capture.replace(/,/g, ''))` on a capture of `matchJsNumber`:
its exact decimal value.  (Captures have at most two fraction digits; the
worker only ever compares such values against small decimal constants, for
which the JS double is exact.) -/
def parseAmountNum (cs : List Char) : ℚ :=
  let cs' := cs.filter (fun c => !(c == ','))
  let (ip, rest) := spanTake isDigitCh cs'
  match rest with
  | '.' :: fr => (digitsToNat ip : ℚ) + (digitsToNat fr : ℚ) / ((10 : ℚ) ^ fr.length)
  | _ => (digitsToNat ip : ℚ)

/-- Try literal alternatives in JS order; on a hit, run the continuation;
on continuation failure fall through to the next alternative (JS
backtracking order for `(?:a|b)`). -/
def tryAlts (ci : Bool) (lits : List (List Char)) (k : List Char → Option α) (cs : List Char) :
    Option α :=
  match lits with
  | [] => none
  | lit :: more =>
    match (if ci then dropLitCI lit cs else dropLitCS lit cs) with
    | some rest =>
      match k rest with
      | some a => some a
      | none => tryAlts ci more k cs
    | none => tryAlts ci more k cs

/-- Pattern 1 of `extractAmounts` (src/index.js 903), at the head of the
input: `(\d{1,3}(?:,\d{3})*(?:\.\d{2})?)\s*(?:₪|ש"ח|שקלים?)`, case
sensitive.  Returns (capture, consumed length). -/
def matchAmountP1 (cs : List Char) : Option (List Char × Nat) :=
  match matchJsNumber cs with
  | none => none
  | some (num, r1) =>
    let (_, r2) := spanTake isJsSpace r1
    tryAlts false ["₪".data, "ש\"ח".data, "שקלים".data, "שקלי".data]
      (fun r3 => some (num, cs.length - r3.length)) r2

/-- Pattern 2 of `extractAmounts` (src/index.js 904), at the head of the
input: `(?:up to|עד לסכום של?)\s*(number)`, case insensitive. -/
def matchAmountP2 (cs : List Char) : Option (List Char × Nat) :=
  tryAlts true ["up to".data, "עד לסכום של".data, "עד לסכום ש".data]
    (fun r1 =>
      let (_, r2) := spanTake isJsSpace r1
      match matchJsNumber r2 with
      | none => none
      | some (num, r3) => some (num, cs.length - r3.length)) cs

/-- Pattern 3 of `extractAmounts` (src/index.js 905), at the head of the
input: `(?:maximum|מקסימום|תקרה)\s*(?:of)?\s*(number)`, case insensitive.
The optional `of` is tried with its continuation first, then skipped
(after the greedy first `\s*` the second `\s*` can only match empty). -/
def matchAmountP3 (cs : List Char) : Option (List Char × Nat) :=
  tryAlts true ["maximum".data, "מקסימום".data, "תקרה".data]
    (fun r1 =>
      let (_, r2) := spanTake isJsSpace r1
      let withOf :=
        match dropLitCI "of".data r2 with
        | some r3 =>
          let (_, r4) := spanTake isJsSpace r3
          match matchJsNumber r4 with
          | none => none
          | some (num, r5) => some (num, cs.length - r5.length)
        | none => none
      match withOf with
      | some a => some a
      | none =>
        match matchJsNumber r2 with
        | none => none
        | some (num, r3) => some (num, cs.length - r3.length)) cs

/-- The `while ((match = pattern.exec(text)) !== null)` loop
(src/index.js 908-916): leftmost matches, resuming after each match.
Structural recursion on fuel; every matcher consumes at least one
character per match (the `0 < len` guard is never taken otherwise), so
fuel equal to the input length never runs out before the input does. -/
def scanPatternAux (m : List Char → Option (List Char × Nat)) :
    Nat → List Char → Nat → List AmountValue
  | 0, _, _ => []
  | _ + 1, [], _ => []
  | fuel + 1, c :: cs, i =>
    match m (c :: cs) with
    | some (num, len) =>
      if 0 < len then
        { raw := String.mk ((c :: cs).take len),
          numeric := parseAmountNum num,
          position := i } :: scanPatternAux m fuel ((c :: cs).drop len) (i + len)
      else []
    | none => scanPatternAux m fuel cs (i + 1)

/-- Run an exec-loop over the whole input. -/
def scanPattern (m : List Char → Option (List Char × Nat)) (cs : List Char) (i : Nat) :
    List AmountValue :=
  scanPatternAux m cs.length cs i

/-- `extractAmounts` (src/index.js 891-920): value state from the schedule
flag; with no schedule (or empty text) return immediately with no values,
otherwise run the three amount patterns in order. -/
def extractAmounts (text : String) (hasSchedule : Bool) : Amounts :=
  let vstate := if hasSchedule then ValueState.known
                else ValueState.unknown_schedule_required
  if text = "" || !hasSchedule then { value_state := vstate, values := [] }
  else
    { value_state := vstate,
      values :=
        scanPattern matchAmountP1 text.data 0 ++
        scanPattern matchAmountP2 text.data 0 ++
        scanPattern matchAmountP3 text.data 0 }

/-- The amount computation of `extractBenefits` (src/index.js 1127-1129):
`hasAmountReference(paragraph) ? extractAmounts(paragraph, hasSchedule) : {}`;
`none` is the empty object. -/
def extractBenefitsAmounts (paragraph : String) (hasSchedule : Bool) : Option Amounts :=
  if hasAmountReference paragraph then some (extractAmounts paragraph hasSchedule)
  else none

/-! ### Layer classification (`detectBenefitLayer`, src/index.js 857-883) -/

/-- `BENEFIT_KEYWORDS.certain` (src/index.js 843-846). -/
def BENEFIT_KEYWORDS_certain : List String :=
  ["זכאי", "זכאית", "יכוסה", "מכוסה", "יוחזר", "יפוצה",
   "entitled", "covered", "reimbursed", "compensated"]

/-- `BENEFIT_KEYWORDS.conditional` (src/index.js 847-850). -/
def BENEFIT_KEYWORDS_conditional : List String :=
  ["בתנאי", "אם", "במקרה", "כאשר", "בכפוף",
   "if", "when", "provided that", "subject to", "conditional"]

/-- `BENEFIT_KEYWORDS.service` (src/index.js 851-854). -/
def BENEFIT_KEYWORDS_service : List String :=
  ["שירות", "סיוע", "ייעוץ", "תמיכה", "מוקד",
   "service", "assistance", "support", "helpline", "concierge"]

/-- `detectBenefitLayer` (src/index.js 857-883): empty text gives
`conditional`; otherwise three sequential keyword loops with early
return — service first, then conditional, then certain — and a final
default of `conditional`.  A for-loop returning on the first hit returns
exactly when some keyword hits. -/
def detectBenefitLayer (text : String) : String :=
  if text = "" then "conditional"
  else if BENEFIT_KEYWORDS_service.any (kwHit text) then "service"
  else if BENEFIT_KEYWORDS_conditional.any (kwHit text) then "conditional"
  else if BENEFIT_KEYWORDS_certain.any (kwHit text) then "certain"
  else "conditional"

/-- Modelled from the claim's words (C7), for refinement comparison with
`detectBenefitLayer`: a fixed priority order — any service keyword wins,
otherwise any conditional keyword, otherwise any certain keyword, with
`conditional` as the default when nothing matches. -/
def layerByPriority (text : String) : String :=
  if BENEFIT_KEYWORDS_service.any (kwHit text) then "service"
  else if BENEFIT_KEYWORDS_conditional.any (kwHit text) then "conditional"
  else if BENEFIT_KEYWORDS_certain.any (kwHit text) then "certain"
  else "conditional"

/-- The input chunk of the C7 scenario. -/
def scenarioChunkC7 : String :=
  "Subject to pre-authorization, the insured is entitled to reimbursement up to 5,000 ILS."

/-! ### Deduplicator (`fuzzyDeduplication`, `capEvidenceSpansWorker`,
src/index.js 1497-1582) -/

/-- Keep the first occurrence of each element (JS `Set` insertion order,
and the `seen`-set idiom). -/
def firstOccurrences : List String → List String → List String
  | [], _ => []
  | x :: rest, seen =>
    if seen.contains x then firstOccurrences rest seen
    else x :: firstOccurrences rest (x :: seen)

/-- The punctuation and bidi characters stripped by the fuzzy dedup key
(src/index.js 1503): ASCII double quote (twice in the source class),
gershayim, geresh, apostrophe, backtick, hyphen, en dash, em dash, colon,
semicolon, comma, period, RLM, LRM. -/
def fuzzyPunctChars : List Char :=
  ['"', '״', '׳', '\'', '`', '-', '–', '—', ':', ';', ',', '.',
   '‏', '‎']

/-- The generic Hebrew title openers stripped once at the front of the key
(src/index.js 1507), in the source's alternation order. -/
def HEB_GENERIC_OPENERS : List String :=
  ["כיסוי", "זכות", "שירות", "הטבה", "ביטוח"]

/-- Strip the first alternative that is a leading literal, once
(`replace(/^(...)/g, '')` with a start anchor fires at most once). -/
def stripOneLeading : List (List Char) → List Char → List Char
  | [], cs => cs
  | p :: ps, cs =>
    match dropLitCS p cs with
    | some r => r
    | none => stripOneLeading ps cs

/-- The fuzzy dedup key (src/index.js 1502-1508): strip punctuation and
bidi marks, digits, whitespace; lowercase; strip one generic Hebrew
opener; keep the first 40 characters. -/
def fuzzyKey (title : String) : String :=
  let c1 := title.data.filter fun c => !(fuzzyPunctChars.contains c)
  let c2 := c1.filter fun c => !isDigitCh c
  let c3 := c2.filter fun c => !isJsSpace c
  let c4 := c3.map lowerCh
  let c5 := stripOneLeading (HEB_GENERIC_OPENERS.map String.data) c4
  String.mk (c5.take 40)

/-- The merge body of `fuzzyDeduplication` (src/index.js 1515-1530): keep
the longer summary (strictly longer replaces), append the new spans whose
quote is not already present (exact quote equality), and union tags in
`Set` order — only when the newcomer has tags at all. -/
def mergeInto (existing b : Benefit) : Benefit :=
  { existing with
    summary :=
      if existing.summary.length < b.summary.length then b.summary
      else existing.summary,
    evidence_spans :=
      existing.evidence_spans ++
        b.evidence_spans.filter (fun ns =>
          !(existing.evidence_spans.any (fun es => es.quote == ns.quote))),
    tags :=
      if b.tags.isEmpty then existing.tags
      else firstOccurrences (existing.tags ++ b.tags) [] }

/-- `Map.get` over the insertion-ordered association list. -/
def lookupB (k : String) : List (String × Benefit) → Option Benefit
  | [] => none
  | (k', b) :: rest => if k' == k then some b else lookupB k rest

/-- `Map.set` on an existing key: merge into the stored benefit in place,
preserving insertion order. -/
def updateMergeB (k : String) (nb : Benefit) (acc : List (String × Benefit)) :
    List (String × Benefit) :=
  acc.map fun p => if p.1 == k then (p.1, mergeInto p.2 nb) else p

/-- The main loop of `fuzzyDeduplication` (src/index.js 1500-1532):
benefits with an empty key are skipped entirely; a fresh key inserts the
benefit, a seen key merges into the stored one. -/
def fuzzyFold : List Benefit → List (String × Benefit) → List (String × Benefit)
  | [], acc => acc
  | b :: rest, acc =>
    let k := fuzzyKey b.title
    if k = "" then fuzzyFold rest acc
    else
      match lookupB k acc with
      | none => fuzzyFold rest (acc ++ [(k, b)])
      | some _ => fuzzyFold rest (updateMergeB k b acc)

/-- Span dedup of `capEvidenceSpansWorker` (src/index.js 1550-1556): keep
the first span per trimmed quote, dropping blank quotes. -/
def dedupSpansAux : List EvidenceSpan → List String → List EvidenceSpan
  | [], _ => []
  | s :: rest, seen =>
    let q := jsTrim s.quote
    if q = "" || seen.contains q then dedupSpansAux rest seen
    else s :: dedupSpansAux rest (q :: seen)

/-- Map key used to group spans (src/index.js 1562): `document_id || '_'`. -/
def docKey (s : EvidenceSpan) : String :=
  if s.document_id = "" then "_" else s.document_id

/-- Group spans by document in first-appearance order (the `byDoc` map,
src/index.js 1560-1565). -/
def groupByDoc (spans : List EvidenceSpan) : List (List EvidenceSpan) :=
  (firstOccurrences (spans.map docKey) []).map fun d =>
    spans.filter fun s => docKey s == d

/-- Stable insertion for the per-group page sort (src/index.js 1566-1568;
`Array.prototype.sort` is stable, and any stable sort by page agrees). -/
def insertByPage (x : EvidenceSpan) : List EvidenceSpan → List EvidenceSpan
  | [] => [x]
  | y :: ys => if x.page ≤ y.page then x :: y :: ys else y :: insertByPage x ys

/-- Sort a group by page ascending, stably. -/
def sortByPage (l : List EvidenceSpan) : List EvidenceSpan :=
  l.foldr insertByPage []

/-- One pass of the round-robin `for` loop (src/index.js 1575-1578): take
the head of each non-exhausted group in order, stopping when the result is
full; returns the spans taken and the advanced groups. -/
def rrPass : List (List EvidenceSpan) → Nat → List EvidenceSpan × List (List EvidenceSpan)
  | [], _ => ([], [])
  | g :: gs, 0 => ([], g :: gs)
  | [] :: gs, room + 1 =>
    let (t, gs') := rrPass gs (room + 1)
    (t, [] :: gs')
  | (s :: g) :: gs, room + 1 =>
    let (t, gs') := rrPass gs room
    (s :: t, g :: gs')

/-- The outer round-robin `while` loop (src/index.js 1573-1580), fuel
recursion: each iteration either fills the result, takes at least one
span, or stops because nothing was added; fuel `max + 1` therefore never
runs out before the JS loop exits. -/
def rrLoop : Nat → List (List EvidenceSpan) → List EvidenceSpan → Nat → List EvidenceSpan
  | 0, _, acc, _ => acc
  | fuel + 1, groups, acc, mx =>
    if mx ≤ acc.length then acc
    else
      let (t, gs') := rrPass groups (mx - acc.length)
      if t.isEmpty then acc else rrLoop fuel gs' (acc ++ t) mx

/-- `capEvidenceSpansWorker` (src/index.js 1548-1582): dedup by trimmed
quote; if at most `mx` remain return them, otherwise group by document,
sort each group by page, and round-robin across groups until `mx` spans
are selected. -/
def capEvidenceSpansWorker (spans : List EvidenceSpan) (mx : Nat) : List EvidenceSpan :=
  let unique := dedupSpansAux spans []
  if unique.length ≤ mx then unique
  else rrLoop (mx + 1) ((groupByDoc unique).map sortByPage) [] mx

/-- The cap step at the end of `fuzzyDeduplication` (src/index.js
1534-1541): only benefits holding more than `MAX_EVIDENCE = 5` spans are
capped. -/
def capBenefit (b : Benefit) : Benefit :=
  if 5 < b.evidence_spans.length then
    { b with evidence_spans := capEvidenceSpansWorker b.evidence_spans 5 }
  else b

/-- `fuzzyDeduplication` (src/index.js 1497-1543): fold the benefits into
the key map, then return the stored benefits in insertion order with the
evidence cap applied. -/
def fuzzyDeduplication (benefits : List Benefit) : List Benefit :=
  ((fuzzyFold benefits []).map Prod.snd).map capBenefit

/-- Well-formedness of the fuzzy fold accumulator: each stored benefit's
key is its own fuzzy key, and no stored key is empty. -/
def accWF (acc : List (String × Benefit)) : Prop :=
  ∀ p ∈ acc, fuzzyKey p.2.title = p.1 ∧ p.1 ≠ ""

/-! ### Structural indexer (`extractClauseReferences`, `findNearestClause`,
src/index.js 43-61, 516-575) -/

/-- A located clause reference (src/index.js 525-531). -/
structure ClauseRef where
  type : String
  number : String
  original : String
  language : String
  position : Nat
  deriving DecidableEq, Repr

/-- ASCII letter (the `[a-z]` class under the `/i` flag). -/
def isAsciiLetter (c : Char) : Bool :=
  ('a' ≤ c && c ≤ 'z') || ('A' ≤ c && c ≤ 'Z')

/-- ASCII letter or digit (the `[A-Z\d]` class under the `/i` flag). -/
def isAsciiAlnum (c : Char) : Bool := isAsciiLetter c || isDigitCh c

/-- One `\.[\d]+` iteration of the dotted-number star. -/
def dotNumIter : List Char → Option (List Char × List Char)
  | '.' :: c :: rest =>
    if isDigitCh c then
      let (t, r) := spanTake isDigitCh rest
      some ('.' :: c :: t, r)
    else none
  | _ => none

/-- Greedy `(?:\.[\d]+)*`.  The pattern tail after this star always
matches (it is an optional group or the pattern end), so the JS engine
keeps the greedy maximal repetition.  Fuel-structural; each iteration
consumes at least two characters. -/
def numDotGroupsAux : Nat → List Char → List Char × List Char
  | 0, cs => ([], cs)
  | fuel + 1, cs =>
    match dotNumIter cs with
    | some (seg, r) =>
      let (t, r') := numDotGroupsAux fuel r
      (seg ++ t, r')
    | none => ([], cs)

/-- Greedy `(?:\.[a-z])?` under `/i` (pattern end follows, so greedy is
what JS keeps). -/
def optDotLetter : List Char → List Char × List Char
  | '.' :: c :: rest =>
    if isAsciiLetter c then (['.', c], rest) else ([], '.' :: c :: rest)
  | cs => ([], cs)

/-- `([\d]+(?:\.[\d]+)*(?:\.[a-z])?)` — the English section/clause number
group. -/
def numSecEn (cs : List Char) : Option (List Char × List Char) :=
  match span1 isDigitCh cs with
  | none => none
  | some (d, r1) =>
    let (g, r2) := numDotGroupsAux r1.length r1
    let (f, r3) := optDotLetter r2
    some (d ++ g ++ f, r3)

/-- `([\d]+(?:\.[\d]+)*)` — article/paragraph/definition numbers. -/
def numDots (cs : List Char) : Option (List Char × List Char) :=
  match span1 isDigitCh cs with
  | none => none
  | some (d, r1) =>
    let (g, r2) := numDotGroupsAux r1.length r1
    some (d ++ g, r2)

/-- `([\d]+)` — the English exclusion number. -/
def numDigitsOnly (cs : List Char) : Option (List Char × List Char) :=
  span1 isDigitCh cs

/-- `([A-Z\d]+)` under `/i` — the appendix/annex label. -/
def numAlnum (cs : List Char) : Option (List Char × List Char) :=
  span1 isAsciiAlnum cs

/-- `([\d\.]+)` — Hebrew condition/definition numbers (digits and dots in
any order, as in the source class). -/
def numDigitsDots (cs : List Char) : Option (List Char × List Char) :=
  span1 (fun c => isDigitCh c || c == '.') cs

/-- `([א-ת\d]+)` — Hebrew chapter/annex/exclusion numbers. -/
def numHebDig (cs : List Char) : Option (List Char × List Char) :=
  span1 (fun c => isHebrewCh c || isDigitCh c) cs

/-- `([א-תd\d][\d\.א-ת]*)` — the Hebrew section
number group (the source class literally includes the letter `d` in the
first position). -/
def numSectionHe : List Char → Option (List Char × List Char)
  | [] => none
  | c :: rest =>
    if isHebrewCh c || c == 'd' || isDigitCh c then
      let (t, r) := spanTake (fun x => isDigitCh x || x == '.' || isHebrewCh x) rest
      some (c :: t, r)
    else none

/-- Generic clause matcher at the head of the input: ordered literal
alternatives (JS alternation and optional-dot order), greedy `\s*`
(whitespace is disjoint from every number class, so no backtracking into
it can succeed), then the number group; continuation failure falls
through to the next alternative exactly as the JS engine retries.
Returns (number capture, consumed length). -/
def matchKwNum (ci : Bool) (lits : List (List Char))
    (numf : List Char → Option (List Char × List Char)) (cs : List Char) :
    Option (List Char × Nat) :=
  tryAlts ci lits
    (fun r1 =>
      let (_, r2) := spanTake isJsSpace r1
      match numf r2 with
      | none => none
      | some (num, rest) => some (num, cs.length - rest.length)) cs

/-- The Hebrew section pattern `סעיף\s*(קטן\s*)?(number)`
(src/index.js 45): the optional `קטן` group is tried with its
continuation first, then dropped (JS backtracking); the number used is
capture group 2, which is always non-empty when the pattern matches, so
the source's `match[2] || match[1]` is just group 2. -/
def matchSectionHe (cs : List Char) : Option (List Char × Nat) :=
  match dropLitCS "סעיף".data cs with
  | none => none
  | some r1 =>
    let (_, r2) := spanTake isJsSpace r1
    let withOpt : Option (List Char × Nat) :=
      match dropLitCS "קטן".data r2 with
      | some r3 =>
        let (_, r4) := spanTake isJsSpace r3
        match numSectionHe r4 with
        | some (num, rest) => some (num, cs.length - rest.length)
        | none => none
      | none => none
    match withOpt with
    | some a => some a
    | none =>
      match numSectionHe r2 with
      | some (num, rest) => some (num, cs.length - rest.length)
      | none => none

/-- The exec-loop scanner for one clause pattern, like `scanPatternAux`:
leftmost matches, resuming after each; every matcher consumes at least
one character. -/
def scanClauseAux (m : List Char → Option (List Char × Nat)) (ty lang : String) :
    Nat → List Char → Nat → List ClauseRef
  | 0, _, _ => []
  | _ + 1, [], _ => []
  | fuel + 1, c :: cs, i =>
    match m (c :: cs) with
    | some (num, len) =>
      if 0 < len then
        { type := ty, number := String.mk num,
          original := String.mk ((c :: cs).take len),
          language := lang, position := i } ::
          scanClauseAux m ty lang fuel ((c :: cs).drop len) (i + len)
      else []
    | none => scanClauseAux m ty lang fuel cs (i + 1)

/-- Scan a whole text with one clause pattern. -/
def scanClause (m : List Char → Option (List Char × Nat)) (ty lang : String)
    (cs : List Char) : List ClauseRef :=
  scanClauseAux m ty lang cs.length cs 0

/-- The thirteen clause patterns of `CLAUSE_PATTERNS`
(src/index.js 43-61), in the object-iteration order of
`extractClauseReferences`: Hebrew first, then English. -/
def clausePatternList :
    List (String × String × (List Char → Option (List Char × Nat))) :=
  [ ("section", "hebrew", matchSectionHe),
    ("chapter", "hebrew", matchKwNum false ["פרק".data] numHebDig),
    ("condition", "hebrew", matchKwNum false ["תנאי".data] numDigitsDots),
    ("annex", "hebrew", matchKwNum false ["נספח".data] numHebDig),
    ("exclusion", "hebrew", matchKwNum false ["חריג".data] numHebDig),
    ("definition", "hebrew", matchKwNum false ["הגדרה".data] numDigitsDots),
    ("section", "english",
      matchKwNum true ["Section".data, "Sec.".data, "Sec".data] numSecEn),
    ("clause", "english",
      matchKwNum true ["Clause".data, "Cl.".data, "Cl".data] numSecEn),
    ("article", "english", matchKwNum true ["Article".data] numDots),
    ("paragraph", "english",
      matchKwNum true ["Paragraph".data, "Para.".data, "Para".data] numDots),
    ("appendix", "english",
      matchKwNum true ["Appendix".data, "App.".data, "App".data, "Annex".data,
        "Rider".data, "Endorsement".data] numAlnum),
    ("exclusion", "english", matchKwNum true ["Exclusion".data] numDigitsOnly),
    ("definition", "english", matchKwNum true ["Definition".data] numDots) ]

/-- Stable insertion by position for the final
`sort((a, b) => a.position - b.position)` (ES2019 sort is stable; any
stable sort by position agrees with it). -/
def insertByPos (x : ClauseRef) : List ClauseRef → List ClauseRef
  | [] => [x]
  | y :: ys => if x.position ≤ y.position then x :: y :: ys else y :: insertByPos x ys

/-- Stable sort of clause references by position. -/
def sortByPos (l : List ClauseRef) : List ClauseRef := l.foldr insertByPos []

/-- `extractClauseReferences` (src/index.js 516-551): run every pattern
over the text, collect all matches, and sort by position (stable). -/
def extractClauseReferences (text : String) : List ClauseRef :=
  if text = "" then []
  else
    sortByPos ((clausePatternList.map fun p => scanClause p.2.2 p.1 p.2.1 text.data).flatten)

/-- The selection loop of `findNearestClause` (src/index.js 561-574):
keep the first reference with a strictly smaller distance among those at
or before the quote position. -/
def selectNearestAux (qpos : Nat) : Option ClauseRef → List ClauseRef → Option ClauseRef
  | best, [] => best
  | best, r :: rest =>
    if r.position ≤ qpos then
      match best with
      | none => selectNearestAux qpos (some r) rest
      | some b =>
        if qpos - r.position < qpos - b.position then
          selectNearestAux qpos (some r) rest
        else selectNearestAux qpos (some b) rest
    else selectNearestAux qpos best rest

/-- `findNearestClause` (src/index.js 553-575): locate the quote's first
occurrence, extract all clause references, and select the nearest one at
or before the quote. -/
def findNearestClause (fullText quote : String) : Option ClauseRef :=
  if fullText = "" || quote = "" then none
  else
    match jsIndexOf fullText quote with
    | none => none
    | some qpos =>
      let allRefs := extractClauseReferences fullText
      if allRefs.isEmpty then none
      else selectNearestAux qpos none allRefs

/-- The C4 scenario text: clause references at positions 5, 40 and 120,
and the quote `QZQZ` first occurring at offset 100. -/
def scenarioTextC4 : String :=
  "abcd Section 1" ++ String.mk (List.replicate 26 'x') ++ "Section 2" ++
    String.mk (List.replicate 51 'y') ++ "QZQZ" ++
    String.mk (List.replicate 16 'w') ++ "Section 3"

/-! ### Text normalization and summaries (`normalizeHebrewText`,
`generateBenefitSummary`, src/index.js 810-821, 1024-1050) -/

/-- The control characters removed by `normalizeHebrewText`
(src/index.js 814): 0x00-0x08, 0x0B, 0x0C, 0x0E-0x1F. -/
def isStrippedCtrl (c : Char) : Bool :=
  c.val ≤ 0x08 || c.val == 0x0B || c.val == 0x0C ||
    (0x0E ≤ c.val && c.val ≤ 0x1F)

/-- The directional marks and BOM removed by `normalizeHebrewText`
(src/index.js 816): U+200E, U+200F, U+202A-U+202E, U+FEFF. -/
def isBidiOrBom (c : Char) : Bool :=
  c.val == 0x200E || c.val == 0x200F ||
    (0x202A ≤ c.val && c.val ≤ 0x202E) || c.val == 0xFEFF

/-- `replace(/\r\n/g, '\n')`: collapse CRLF pairs left to right. -/
def crlfToLf : List Char → List Char
  | '\r' :: '\n' :: rest => '\n' :: crlfToLf rest
  | c :: rest => c :: crlfToLf rest
  | [] => []

/-- `normalizeHebrewText` (src/index.js 810-821): drop control
characters, drop bidi marks and BOM, normalize line endings, trim. -/
def normalizeHebrewText (s : String) : String :=
  if s = "" then ""
  else
    let c1 := s.data.filter fun c => !isStrippedCtrl c
    let c2 := c1.filter fun c => !isBidiOrBom c
    let c3 := crlfToLf c2
    let c4 := c3.map fun c => if c == '\r' then '\n' else c
    String.mk (jsTrimList c4)

/-- The `[.\-)\s]` separator class of the leading clause-number pattern
(src/index.js 1028). -/
def isSepCN (c : Char) : Bool := c == '.' || c == '-' || c == ')' || isJsSpace c

/-- The `[\dא-ת]` class. -/
def isDigitHeb (c : Char) : Bool := isDigitCh c || isHebrewCh c

/-- One `[.\-)\s]+[\dא-ת]+` iteration of the clause-number
star; the two classes are disjoint, so greedy spans are exact within an
iteration. -/
def cnIter (cs : List Char) : Option (List Char) :=
  match span1 isSepCN cs with
  | none => none
  | some (_, r1) =>
    match span1 isDigitHeb r1 with
    | none => none
    | some (_, r2) => some r2

/-- Rests after 0, 1, 2, … star iterations, in that order; fuel is
structural, each iteration consuming at least two characters. -/
def cnRests : Nat → List Char → List (List Char)
  | 0, cs => [cs]
  | fuel + 1, cs =>
    match cnIter cs with
    | some r => cs :: cnRests fuel r
    | none => [cs]

/-- Finish the clause-number prefix: the final `[.\-)\s]+` tried from the
deepest star repetition backwards (JS backtracking order). -/
def cnFinish : List (List Char) → Option (List Char)
  | [] => none
  | r :: more =>
    match span1 isSepCN r with
    | some (_, rest) => some rest
    | none => cnFinish more

/-- The anchored prefix `^[\s]*(?:סעיף\s*)?[\dא-ת]+
(?:[.\-)\s]+[\dא-ת]+)*[.\-)\s]+` (src/index.js 1028): returns
the rest of the input after the match, if any.  The optional `סעיף` group
is tried with its whole continuation first, then dropped. -/
def matchLeadingClauseNum (cs : List Char) : Option (List Char) :=
  let (_, r0) := spanTake isJsSpace cs
  let core : List Char → Option (List Char) := fun r =>
    match span1 isDigitHeb r with
    | none => none
    | some (_, r1) => cnFinish (cnRests r1.length r1).reverse
  match dropLitCS "סעיף".data r0 with
  | some r1 =>
    let (_, r2) := spanTake isJsSpace r1
    match core r2 with
    | some rest => some rest
    | none => core r0
  | none => core r0

/-- Strip the leading clause-number prefix (a replace by the empty
string). -/
def stripLeadingClauseNum (cs : List Char) : List Char :=
  match matchLeadingClauseNum cs with
  | some rest => rest
  | none => cs

/-- Strip the boilerplate opener `^הפוליסה\.\s*` (src/index.js 1029). -/
def stripPolicyOpener (cs : List Char) : List Char :=
  match dropLitCS "הפוליסה.".data cs with
  | some r => (spanTake isJsSpace r).2
  | none => cs

/-- Last index of a character (JS `lastIndexOf`), `none` for -1. -/
def lastIndexOfChAux (c : Char) : List Char → Nat → Option Nat
  | [], _ => none
  | x :: rest, i =>
    match lastIndexOfChAux c rest (i + 1) with
    | some j => some j
    | none => if x == c then some i else none

/-- Last index of a character in a list. -/
def lastIndexOfCh (c : Char) (cs : List Char) : Option Nat :=
  lastIndexOfChAux c cs 0

/-- The word-boundary fallback cuts of `generateBenefitSummary`
(src/index.js 1043-1049). -/
def summarySpaceCut (t : List Char) : String :=
  match lastIndexOfCh ' ' (t.take 200) with
  | some j =>
    if 80 < j then normalizeHebrewText (String.mk (t.take j) ++ "...")
    else normalizeHebrewText (String.mk (t.take 200) ++ "...")
  | none => normalizeHebrewText (String.mk (t.take 200) ++ "...")

/-- `generateBenefitSummary` (src/index.js 1024-1050): strip the leading
clause number and the policy opener, trim; return short text as is,
otherwise cut at the last sentence end past 80 characters, else at the
last word boundary past 80, else hard-truncate — the last two suffixed
with an ellipsis. -/
def generateBenefitSummary (paragraph : String) : String :=
  let t1 := stripLeadingClauseNum paragraph.data
  let t2 := stripPolicyOpener t1
  let t := jsTrimList t2
  if t.length ≤ 200 then normalizeHebrewText (String.mk t)
  else
    match lastIndexOfCh '.' (t.take 200) with
    | some i =>
      if 80 < i then normalizeHebrewText (String.mk (t.take (i + 1)))
      else summarySpaceCut t
    | none => summarySpaceCut t

/-! ### Harvest filter and amount normalization
(`extractBenefits`, `stageNormalize`, src/index.js 1057-1147, 1425-1447) -/

/-- `RIGHT_KEYWORDS.hebrew` (src/index.js 77-86). -/
def RIGHT_KEYWORDS_hebrew : List String :=
  ["זכאי", "זכאית", "יהיה זכאי", "תהיה זכאית",
   "כיסוי", "יכוסה", "מכוסה", "יכסה",
   "החזר", "יוחזר", "להחזיר",
   "פיצוי", "יפוצה", "לפצות",
   "תשלום", "ישולם", "לשלם",
   "שיפוי", "ישופה", "לשפות",
   "יינתן", "תינתן", "ניתן ל",
   "רשאי", "רשאית", "מותר"]

/-- `RIGHT_KEYWORDS.english` (src/index.js 87-96). -/
def RIGHT_KEYWORDS_english : List String :=
  ["entitled", "shall be entitled", "will be entitled",
   "covered", "shall cover", "will cover", "coverage",
   "reimburse", "reimbursement", "shall reimburse",
   "compensate", "compensation", "shall compensate",
   "payment", "shall pay", "will pay",
   "indemnify", "indemnification",
   "benefit", "shall provide", "will provide",
   "eligible", "eligibility"]

/-- The per-chunk filter of `extractBenefits` (src/index.js 1073-1079):
length between 30 and 2000 characters and at least one right-conferring
keyword (raw or lowercased).  A chunk passing this filter yields a
benefit (the in-document duplicate check aside). -/
def chunkYieldsBenefit (paragraph : String) : Bool :=
  30 ≤ paragraph.length && paragraph.length ≤ 2000 &&
    (RIGHT_KEYWORDS_hebrew ++ RIGHT_KEYWORDS_english).any (kwHit paragraph)

/-- The amounts step of `stageNormalize` (src/index.js 1427-1433): when
the summary references an amount and no schedule exists, force
`unknown_schedule_required` with no values; otherwise keep the
harvester's amounts (the empty object `{}` is truthy in
`benefit.amounts || {}`, so `none` stays `none`). -/
def normalizeAmounts (summary : String) (amounts : Option Amounts)
    (hasSchedule : Bool) : Option Amounts :=
  if hasAmountReference summary && !hasSchedule then
    some { value_state := ValueState.unknown_schedule_required, values := [] }
  else amounts

/-- The amounts carried by one harvested chunk after `stageHarvest` and
the normalization step of `stageNormalize` (the benefit's summary is
`generateBenefitSummary paragraph`, src/index.js 1135). -/
def pipelineAmounts (paragraph : String) (hasSchedule : Bool) : Option Amounts :=
  normalizeAmounts (generateBenefitSummary paragraph)
    (extractBenefitsAmounts paragraph hasSchedule) hasSchedule

/-- The C3 counterexample chunk: passes the rights filter, carries no
currency/amount reference. -/
def scenarioChunkC3 : String :=
  "The insured shall be entitled to a consultation with a specialist."

/-! ### Validator (`stageValidate`, src/index.js 1624-1687) -/

/-- Truthiness of one span's `quote`, `document_id` and `page`
(src/index.js 1643). -/
def spanComplete (s : EvidenceSpan) : Bool :=
  s.quote != "" && s.document_id != "" && s.page != 0

/-- The validator's per-benefit test (src/index.js 1640-1644): spans exist,
are non-empty, and every span is complete. -/
def benefitHasCompleteEvidence (b : Benefit) : Bool :=
  !b.evidence_spans.isEmpty && b.evidence_spans.all spanComplete

/-- Result triple of `stageValidate`: the valid/invalid partition and the
coverage ratio (modelled as an exact rational). -/
structure ValidateResult where
  valid : List Benefit
  invalid : List Benefit
  evidence_coverage_ratio : ℚ
  deriving Repr

/-- `stageValidate` (src/index.js 1639-1656): partition the normalized
benefits by evidence completeness and compute the coverage ratio
(`length > 0 ? valid/total : 0`).  The second filter's condition in the
source is the literal De Morgan negation of the first. -/
def stageValidate (normalizedBenefits : List Benefit) : ValidateResult :=
  let valid := normalizedBenefits.filter benefitHasCompleteEvidence
  let invalid := normalizedBenefits.filter (fun b => !benefitHasCompleteEvidence b)
  { valid := valid
    invalid := invalid
    evidence_coverage_ratio :=
      if normalizedBenefits.length > 0 then
        (valid.length : ℚ) / (normalizedBenefits.length : ℚ)
      else 0 }

/-- `stageExport` persists exactly `validatedBenefits.valid`
(src/index.js 1693-1694), so the exported set is `(stageValidate bs).valid`. -/
def exportedBenefits (normalizedBenefits : List Benefit) : List Benefit :=
  (stageValidate normalizedBenefits).valid

/-! ### Claim C1 -/

/-- Claim C1: every benefit in the validator's accepted set — the set
passed to export — has at least one evidence span, and every one of its
spans has a non-empty quote, a non-empty document id and a page greater
than zero. -/
theorem validator_accepted_evidence_complete
    (bs : List Benefit) (b : Benefit) (hb : b ∈ exportedBenefits bs) :
    b.evidence_spans ≠ [] ∧
      ∀ s ∈ b.evidence_spans,
        s.quote ≠ "" ∧ s.document_id ≠ "" ∧ 0 < s.page := by
  have hmem := List.of_mem_filter (p := benefitHasCompleteEvidence) hb
  simp only [benefitHasCompleteEvidence, Bool.and_eq_true, List.all_eq_true,
    Bool.not_eq_true', List.isEmpty_eq_false_iff_exists_mem] at hmem
  obtain ⟨⟨x, hx⟩, hall⟩ := hmem
  constructor
  · intro hnil; rw [hnil] at hx; exact absurd hx (List.not_mem_nil x)
  · intro s hs
    have := hall s hs
    simp only [spanComplete, Bool.and_eq_true, bne_iff_ne, ne_eq] at this
    exact ⟨this.1.1, this.1.2, Nat.pos_of_ne_zero this.2⟩

/-- Witness for C1 at a concrete input: a singleton benefit list whose
benefit carries one complete span is accepted, and the theorem applies. -/
theorem validator_accepted_evidence_complete_witness :
    (let b : Benefit :=
      { benefit_id := "b1", layer := "certain", title := "t", summary := "s",
        status := "included",
        evidence_spans := [{ document_id := "d1", page := 2, quote := "q" }],
        tags := [], eligibility := "", amounts := none, actionable_steps := [] }
     b ∈ exportedBenefits [b] ∧
       (b.evidence_spans ≠ [] ∧
        ∀ s ∈ b.evidence_spans,
          s.quote ≠ "" ∧ s.document_id ≠ "" ∧ 0 < s.page)) := by
  intro b
  exact ⟨by decide, validator_accepted_evidence_complete [b] b (by decide)⟩

/-! ### Claim C2 -/

/-- Claim C2: for every text chunk with a currency/amount keyword or
numeric currency pattern (`hasAmountReference`), when no schedule document
is present the harvester's benefit gets
`amounts = {value_state: unknown_schedule_required, values: []}` — numeric
matches in the raw text are discarded. -/
theorem schedule_gating_harvester (chunk : String)
    (h : hasAmountReference chunk = true) :
    extractBenefitsAmounts chunk false =
      some { value_state := ValueState.unknown_schedule_required, values := [] } := by
  simp [extractBenefitsAmounts, h, extractAmounts]

/-- Witness for C2 at a concrete input containing an amount keyword and a
numeric amount. -/
theorem schedule_gating_harvester_witness :
    hasAmountReference "Deductible of $1,500 applies per claim event." = true ∧
    extractBenefitsAmounts "Deductible of $1,500 applies per claim event." false =
      some { value_state := ValueState.unknown_schedule_required, values := [] } :=
  ⟨by decide, schedule_gating_harvester _ (by decide)⟩

/-! ### Claim C7 -/

/-- Claim C7: layer classification follows the fixed priority order
service > conditional > certain with default `conditional`
(`detectBenefitLayer` refines `layerByPriority`, the order written in the
claim); and on the scenario chunk with a schedule present the layer is
`conditional` and the extracted amounts contain exactly one entry with
numeric 5000. -/
theorem layer_priority_order_and_scenario :
    (∀ t : String, detectBenefitLayer t = layerByPriority t) ∧
    detectBenefitLayer scenarioChunkC7 = "conditional" ∧
    extractBenefitsAmounts scenarioChunkC7 true =
      some { value_state := ValueState.known,
             values := [{ raw := "up to 5,000", numeric := 5000, position := 71 }] } := by
  refine ⟨?_, by decide, by decide⟩
  intro t
  by_cases h : t = ""
  · subst h; decide
  · simp [detectBenefitLayer, layerByPriority, h]

/-! ### Claim C8 -/

/-- Length of a filter partition: the two complementary filters of
`stageValidate` cover the input list. -/
theorem length_filter_partition (p : Benefit → Bool) (l : List Benefit) :
    (l.filter p).length + (l.filter (fun b => !p b)).length = l.length := by
  induction l with
  | nil => rfl
  | cons b rest ih =>
    cases hb : p b <;> simp [List.filter_cons, hb] <;> omega

/-- Claim C8: the validator's `evidence_coverage_ratio` is
`|valid| / (|valid| + |invalid|)`, it is 0 on the empty benefit set, and a
benefit with zero evidence spans lands in the invalid partition — excluded
from the numerator, included in the denominator. -/
theorem validator_coverage_ratio_spec (bs : List Benefit) :
    (stageValidate bs).evidence_coverage_ratio =
      ((stageValidate bs).valid.length : ℚ) /
        (((stageValidate bs).valid.length : ℚ) + ((stageValidate bs).invalid.length : ℚ)) ∧
    (bs = [] → (stageValidate bs).evidence_coverage_ratio = 0) ∧
    ∀ b ∈ bs, b.evidence_spans = [] →
      b ∈ (stageValidate bs).invalid ∧ b ∉ (stageValidate bs).valid := by
  have hpart := length_filter_partition benefitHasCompleteEvidence bs
  refine ⟨?_, ?_, ?_⟩
  · simp only [stageValidate]
    by_cases hlen : bs.length > 0
    · simp only [hlen, if_pos]
      have : ((bs.filter benefitHasCompleteEvidence).length : ℚ) +
          ((bs.filter (fun b => !benefitHasCompleteEvidence b)).length : ℚ) =
          (bs.length : ℚ) := by
        rw [← Nat.cast_add, hpart]
      rw [this]
    · have hnil : bs = [] := by
        cases bs with
        | nil => rfl
        | cons a l => exact absurd (Nat.succ_pos l.length) hlen
      subst hnil
      norm_num
  · intro h; subst h; rfl
  · intro b hb hspans
    have hfalse : benefitHasCompleteEvidence b = false := by
      simp [benefitHasCompleteEvidence, hspans]
    constructor
    · exact List.mem_filter.mpr ⟨hb, by simp [hfalse]⟩
    · intro hmem
      have := List.of_mem_filter (p := benefitHasCompleteEvidence) hmem
      rw [hfalse] at this
      exact Bool.false_ne_true this

/-- Witness for C8 at a concrete input: one complete benefit plus one
benefit with zero spans; the ratio is 1/2 and the empty-evidence benefit is
in the invalid bucket. -/
theorem validator_coverage_ratio_spec_witness :
    (let good : Benefit :=
      { benefit_id := "b1", layer := "certain", title := "t", summary := "s",
        status := "included",
        evidence_spans := [{ document_id := "d1", page := 1, quote := "q" }],
        tags := [], eligibility := "", amounts := none, actionable_steps := [] }
     let bad : Benefit :=
      { benefit_id := "b2", layer := "certain", title := "t2", summary := "s2",
        status := "included", evidence_spans := [],
        tags := [], eligibility := "", amounts := none, actionable_steps := [] }
     bad ∈ (stageValidate [good, bad]).invalid ∧
       bad ∉ (stageValidate [good, bad]).valid) := by
  intro good bad
  exact (validator_coverage_ratio_spec [good, bad]).2.2 bad (by decide) (by decide)

/-! ### Claim C9 -/

/-- Helper: the fuzzy fold is insensitive to empty-key benefits — it
skips exactly them. -/
theorem fuzzyFold_filter_ne (l : List Benefit) :
    ∀ acc, fuzzyFold l acc = fuzzyFold (l.filter fun b => fuzzyKey b.title != "") acc := by
  induction l with
  | nil => intro _; rfl
  | cons b rest ih =>
    intro acc
    by_cases h : fuzzyKey b.title = ""
    · simp only [fuzzyFold, List.filter_cons, h, bne_self_eq_false, if_pos rfl]
      simp only [Bool.false_eq_true, if_false]
      exact ih acc
    · have hb : (fuzzyKey b.title != "") = true := by simp [h]
      simp only [fuzzyFold, List.filter_cons, hb, if_true, if_neg h]
      cases hl : lookupB (fuzzyKey b.title) acc <;> simp [hl, ih]

/-- Claim C9: a benefit whose title normalizes to the empty fuzzy key
(e.g. a title of only digits and punctuation) is silently dropped by the
fuzzy pass — the pass gives the same output with or without such
benefits, so they are neither kept nor merged; in particular a singleton
list of such a benefit dedups to the empty list. -/
theorem fuzzy_dedup_drops_empty_key :
    (∀ bs : List Benefit,
      fuzzyDeduplication bs =
        fuzzyDeduplication (bs.filter fun b => fuzzyKey b.title != "")) ∧
    fuzzyKey "123-45." = "" ∧
    (∀ b : Benefit, fuzzyKey b.title = "" → fuzzyDeduplication [b] = []) := by
  refine ⟨?_, by decide, ?_⟩
  · intro bs; unfold fuzzyDeduplication; rw [fuzzyFold_filter_ne]
  · intro b h; simp [fuzzyDeduplication, fuzzyFold, h]

/-- Witness for C9 at a concrete input: a benefit titled `"123-45."` has
an empty key and vanishes from the fuzzy pass. -/
theorem fuzzy_dedup_drops_empty_key_witness :
    (let b : Benefit :=
      { benefit_id := "b1", layer := "conditional", title := "123-45.",
        summary := "s", status := "included",
        evidence_spans := [{ document_id := "d", page := 1, quote := "q" }],
        tags := [], eligibility := "", amounts := none, actionable_steps := [] }
     fuzzyDeduplication [b] = []) := by
  intro b
  exact fuzzy_dedup_drops_empty_key.2.2 b (by decide)

/-! ### Claim C10 -/

/-- Claim C10: when two benefits share a non-empty fuzzy key, the fuzzy
pass yields exactly the first benefit merged with the second (the cap
step applied); the merge changes only summary (replaced when the later
one is strictly longer), evidence spans (union, dedup by exact quote) and
tags (set union, only when the later benefit has tags) — benefit id,
title, layer, status, eligibility, amounts and actionable steps all keep
the first occurrence's values. -/
theorem fuzzy_merge_frame (e b : Benefit)
    (hk : fuzzyKey b.title = fuzzyKey e.title)
    (hne : fuzzyKey e.title ≠ "") :
    fuzzyDeduplication [e, b] = [capBenefit (mergeInto e b)] ∧
    (mergeInto e b).benefit_id = e.benefit_id ∧
    (mergeInto e b).title = e.title ∧
    (mergeInto e b).layer = e.layer ∧
    (mergeInto e b).status = e.status ∧
    (mergeInto e b).eligibility = e.eligibility ∧
    (mergeInto e b).amounts = e.amounts ∧
    (mergeInto e b).actionable_steps = e.actionable_steps ∧
    (mergeInto e b).summary =
      (if e.summary.length < b.summary.length then b.summary else e.summary) ∧
    (mergeInto e b).evidence_spans =
      (e.evidence_spans ++ b.evidence_spans.filter (fun ns =>
        !(e.evidence_spans.any fun es => es.quote == ns.quote))) ∧
    (mergeInto e b).tags =
      (if b.tags.isEmpty then e.tags else firstOccurrences (e.tags ++ b.tags) []) := by
  refine ⟨?_, rfl, rfl, rfl, rfl, rfl, rfl, rfl, rfl, rfl, rfl⟩
  have hbne : ¬ fuzzyKey b.title = "" := by rw [hk]; exact hne
  simp [fuzzyDeduplication, fuzzyFold, hne, hbne, hk, lookupB, updateMergeB]

/-- Witness for C10 at concrete inputs: two benefits whose titles differ
only in digits and punctuation share the key `"dentalcare"` and merge
into the first. -/
theorem fuzzy_merge_frame_witness :
    (let e : Benefit :=
      { benefit_id := "b1", layer := "certain", title := "Dental Care 1",
        summary := "short", status := "included",
        evidence_spans := [{ document_id := "d1", page := 1, quote := "qa" }],
        tags := ["t1"], eligibility := "", amounts := none, actionable_steps := [] }
     let b : Benefit :=
      { benefit_id := "b2", layer := "service", title := "Dental-Care 2",
        summary := "a longer summary", status := "excluded",
        evidence_spans := [{ document_id := "d2", page := 3, quote := "qb" }],
        tags := ["t2"], eligibility := "", amounts := none, actionable_steps := [] }
     fuzzyDeduplication [e, b] = [capBenefit (mergeInto e b)] ∧
       (mergeInto e b).benefit_id = e.benefit_id ∧
       (mergeInto e b).status = e.status) := by
  intro e b
  have h := fuzzy_merge_frame e b (by decide) (by decide)
  exact ⟨h.1, h.2.1, h.2.2.2.2.1⟩

/-! ### Claim C6: supporting lemmas -/

/-- One round-robin pass takes at most `room` spans. -/
theorem rrPass_take_le : ∀ (gs : List (List EvidenceSpan)) (room : Nat),
    (rrPass gs room).1.length ≤ room := by
  intro gs
  induction gs with
  | nil => intro room; simp [rrPass]
  | cons g rest ih =>
    intro room
    cases room with
    | zero => simp [rrPass]
    | succ r =>
      cases g with
      | nil =>
        rcases hp : rrPass rest (r + 1) with ⟨t, gs'⟩
        have := ih (r + 1)
        rw [hp] at this
        simpa [rrPass, hp] using this
      | cons s g' =>
        rcases hp : rrPass rest r with ⟨t, gs'⟩
        have ht : t.length ≤ r := by
          have := ih r
          rw [hp] at this
          simpa using this
        simp only [rrPass, hp, List.length_cons]
        omega

/-- The round-robin loop never exceeds the cap. -/
theorem rrLoop_length_le : ∀ (fuel : Nat) (gs : List (List EvidenceSpan))
    (acc : List EvidenceSpan) (mx : Nat), acc.length ≤ mx →
    (rrLoop fuel gs acc mx).length ≤ mx := by
  intro fuel
  induction fuel with
  | zero => intro gs acc mx h; exact h
  | succ n ih =>
    intro gs acc mx h
    simp only [rrLoop]
    split
    · exact h
    · rename_i hfull
      rcases hp : rrPass gs (mx - acc.length) with ⟨t, gs'⟩
      have ht : t.length ≤ mx - acc.length := by
        have := rrPass_take_le gs (mx - acc.length)
        rw [hp] at this
        simpa using this
      simp only [hp]
      split
      · exact h
      · apply ih
        rw [List.length_append]
        omega

/-- The evidence cap returns at most `mx` spans. -/
theorem capEvidenceSpansWorker_length_le (spans : List EvidenceSpan) (mx : Nat) :
    (capEvidenceSpansWorker spans mx).length ≤ mx := by
  show (if (dedupSpansAux spans []).length ≤ mx then dedupSpansAux spans []
        else rrLoop (mx + 1) ((groupByDoc (dedupSpansAux spans [])).map sortByPage)
          [] mx).length ≤ mx
  split
  · assumption
  · exact rrLoop_length_le _ _ _ _ (by simp)

/-- The cap step never changes the title. -/
theorem capBenefit_title (b : Benefit) : (capBenefit b).title = b.title := by
  unfold capBenefit; split <;> rfl

/-- After the cap step every benefit holds at most five spans. -/
theorem capBenefit_spans_le (b : Benefit) :
    (capBenefit b).evidence_spans.length ≤ 5 := by
  unfold capBenefit
  split
  · exact capEvidenceSpansWorker_length_le _ _
  · rename_i h; exact Nat.le_of_not_lt h

/-- The cap step is the identity on benefits already within the cap. -/
theorem capBenefit_eq_self (b : Benefit) (h : b.evidence_spans.length ≤ 5) :
    capBenefit b = b := by
  unfold capBenefit
  exact if_neg (Nat.not_lt.mpr h)

/-- Key lookup fails exactly when the key is absent. -/
theorem lookupB_none_iff (k : String) (acc : List (String × Benefit)) :
    lookupB k acc = none ↔ k ∉ acc.map Prod.fst := by
  induction acc with
  | nil => simp [lookupB]
  | cons p rest ih =>
    rcases p with ⟨k', b⟩
    by_cases h : (k' == k) = true
    · have : k' = k := eq_of_beq h
      subst this
      simp [lookupB]
    · have hne : ¬ k = k' := fun hc => h (by rw [hc]; exact beq_self_eq_true k')
      simp [lookupB, h, ih, hne]

/-- Merging on an existing key leaves the key sequence unchanged. -/
theorem updateMergeB_keys (k : String) (nb : Benefit) :
    ∀ acc, (updateMergeB k nb acc).map Prod.fst = acc.map Prod.fst := by
  intro acc
  induction acc with
  | nil => rfl
  | cons p rest ih =>
    simp only [updateMergeB, List.map_cons] at ih ⊢
    rw [ih]
    congr 1
    split <;> rfl

/-- The fold preserves accumulator well-formedness and key distinctness. -/
theorem fuzzyFold_wf (l : List Benefit) :
    ∀ acc, accWF acc → ((acc.map Prod.fst).Nodup) →
      accWF (fuzzyFold l acc) ∧ ((fuzzyFold l acc).map Prod.fst).Nodup := by
  induction l with
  | nil => intro acc h1 h2; exact ⟨h1, h2⟩
  | cons b rest ih =>
    intro acc h1 h2
    by_cases hk : fuzzyKey b.title = ""
    · simp only [fuzzyFold, if_pos hk]; exact ih acc h1 h2
    · simp only [fuzzyFold, if_neg hk]
      cases hl : lookupB (fuzzyKey b.title) acc with
      | none =>
        apply ih
        · intro p hp
          rcases List.mem_append.mp hp with h | h
          · exact h1 p h
          · have : p = (fuzzyKey b.title, b) := by simpa using h
            subst this
            exact ⟨rfl, hk⟩
        · have hnot := (lookupB_none_iff _ _).mp hl
          rw [List.map_append]
          simp [List.nodup_append, h2, hnot]
      | some e =>
        apply ih
        · intro p hp
          simp only [updateMergeB, List.mem_map] at hp
          obtain ⟨q, hq, hpq⟩ := hp
          have hq' := h1 q hq
          by_cases hc : (q.1 == fuzzyKey b.title) = true
          · rw [if_pos hc] at hpq
            subst hpq
            exact ⟨hq'.1, hq'.2⟩
          · rw [if_neg hc] at hpq
            subst hpq
            exact hq'
        · rw [updateMergeB_keys]
          exact h2

/-- On a list of benefits with fresh, pairwise-distinct, non-empty keys
the fold only inserts, in order. -/
theorem fuzzyFold_fresh (l : List Benefit) :
    ∀ acc, (∀ b ∈ l, fuzzyKey b.title ≠ "") →
      ((l.map fun b => fuzzyKey b.title).Nodup) →
      (∀ b ∈ l, fuzzyKey b.title ∉ acc.map Prod.fst) →
      fuzzyFold l acc = acc ++ (l.map fun b => (fuzzyKey b.title, b)) := by
  induction l with
  | nil => intro acc _ _ _; simp [fuzzyFold]
  | cons b rest ih =>
    intro acc hne hnd hfr
    have hk : fuzzyKey b.title ≠ "" := hne b (List.mem_cons_self b rest)
    have hkn : lookupB (fuzzyKey b.title) acc = none :=
      (lookupB_none_iff _ _).mpr (hfr b (List.mem_cons_self b rest))
    have hnd' : fuzzyKey b.title ∉ (rest.map fun x => fuzzyKey x.title) ∧
        ((rest.map fun x => fuzzyKey x.title)).Nodup := by
      rw [List.map_cons] at hnd
      exact List.nodup_cons.mp hnd
    simp only [fuzzyFold, if_neg hk, hkn]
    rw [ih (acc ++ [(fuzzyKey b.title, b)])
      (fun x hx => hne x (List.mem_cons_of_mem b hx))
      hnd'.2
      ?_]
    · simp
    · intro x hx
      rw [List.map_append, List.mem_append]
      rintro (hmem | hmem)
      · exact hfr x (List.mem_cons_of_mem b hx) hmem
      · have hx1 : fuzzyKey x.title = fuzzyKey b.title := by simpa using hmem
        exact hnd'.1 (hx1 ▸ List.mem_map_of_mem (fun y => fuzzyKey y.title) hx)

/-! ### Claim C6 -/

/-- Claim C6: the fuzzy deduplication pass is idempotent — applied to its
own output it performs no further merges and returns the same benefit
list. -/
theorem fuzzy_dedup_idempotent (bs : List Benefit) :
    fuzzyDeduplication (fuzzyDeduplication bs) = fuzzyDeduplication bs := by
  obtain ⟨hwf, hnd⟩ := fuzzyFold_wf bs [] (fun p hp => absurd hp (List.not_mem_nil p)) (by simp)
  have hkeys : (fuzzyDeduplication bs).map (fun b => fuzzyKey b.title) =
      (fuzzyFold bs []).map Prod.fst := by
    unfold fuzzyDeduplication
    rw [List.map_map, List.map_map]
    apply List.map_congr_left
    intro p hp
    show fuzzyKey (capBenefit p.2).title = p.1
    rw [capBenefit_title]
    exact (hwf p hp).1
  have hkeynd : ((fuzzyDeduplication bs).map (fun b => fuzzyKey b.title)).Nodup := by
    rw [hkeys]; exact hnd
  have hkeyne : ∀ b ∈ fuzzyDeduplication bs, fuzzyKey b.title ≠ "" := by
    intro x hx
    unfold fuzzyDeduplication at hx
    simp only [List.map_map, List.mem_map] at hx
    obtain ⟨p, hp, hpx⟩ := hx
    rw [← hpx]
    show fuzzyKey (capBenefit p.2).title ≠ ""
    rw [capBenefit_title, (hwf p hp).1]
    exact (hwf p hp).2
  have hspans : ∀ b ∈ fuzzyDeduplication bs, b.evidence_spans.length ≤ 5 := by
    intro x hx
    unfold fuzzyDeduplication at hx
    simp only [List.map_map, List.mem_map] at hx
    obtain ⟨p, hp, hpx⟩ := hx
    rw [← hpx]
    exact capBenefit_spans_le _
  conv_lhs => rw [fuzzyDeduplication]
  rw [fuzzyFold_fresh (fuzzyDeduplication bs) [] hkeyne hkeynd (by simp)]
  simp only [List.nil_append, List.map_map]
  conv_rhs => rw [← List.map_id (fuzzyDeduplication bs)]
  apply List.map_congr_left
  intro x hx
  show capBenefit x = x
  exact capBenefit_eq_self x (hspans x hx)

/-! ### Claim C5: supporting lemmas -/

/-- On spans with pairwise-distinct, non-blank trimmed quotes the dedup
filter keeps everything. -/
theorem dedupSpansAux_id (spans : List EvidenceSpan) :
    ∀ seen : List String, ((spans.map fun s => jsTrim s.quote).Nodup) →
      (∀ s ∈ spans, jsTrim s.quote ≠ "") →
      (∀ s ∈ spans, jsTrim s.quote ∉ seen) →
      dedupSpansAux spans seen = spans := by
  induction spans with
  | nil => intro _ _ _ _; rfl
  | cons s rest ih =>
    intro seen hnd hne hseen
    have h1 : jsTrim s.quote ≠ "" := hne s (List.mem_cons_self s rest)
    have h2 : jsTrim s.quote ∉ seen := hseen s (List.mem_cons_self s rest)
    have hnd' : jsTrim s.quote ∉ (rest.map fun x => jsTrim x.quote) ∧
        ((rest.map fun x => jsTrim x.quote)).Nodup := by
      rw [List.map_cons] at hnd
      exact List.nodup_cons.mp hnd
    have hcond : (jsTrim s.quote = "" || (seen.contains (jsTrim s.quote))) = false := by
      simp [h1, h2]
    simp only [dedupSpansAux, hcond, Bool.false_eq_true, if_false]
    rw [ih (jsTrim s.quote :: seen) hnd'.2
      (fun x hx => hne x (List.mem_cons_of_mem s hx))]
    intro x hx
    rw [List.mem_cons]
    rintro (hc | hc)
    · exact hnd'.1 (hc ▸ List.mem_map_of_mem (fun y => jsTrim y.quote) hx)
    · exact hseen x (List.mem_cons_of_mem s hx) hc

/-- One round-robin pass only redistributes: taken spans plus what is left
permute what was there. -/
theorem rrPass_perm : ∀ (gs : List (List EvidenceSpan)) (room : Nat),
    ((rrPass gs room).1 ++ (rrPass gs room).2.flatten).Perm gs.flatten := by
  intro gs
  induction gs with
  | nil => intro room; simp [rrPass]
  | cons g rest ih =>
    intro room
    cases room with
    | zero => simp [rrPass]
    | succ r =>
      cases g with
      | nil =>
        rcases hp : rrPass rest (r + 1) with ⟨t, gs'⟩
        have hih := ih (r + 1)
        rw [hp] at hih
        simpa [rrPass, hp] using hih
      | cons s g' =>
        rcases hp : rrPass rest r with ⟨t, gs'⟩
        have hih : (t ++ gs'.flatten).Perm rest.flatten := by
          have := ih r
          rw [hp] at this
          simpa using this
        simp only [rrPass, hp, List.flatten_cons, List.cons_append]
        refine List.Perm.cons s ?_
        have h1 : (t ++ (g' ++ gs'.flatten)).Perm (g' ++ (t ++ gs'.flatten)) := by
          rw [← List.append_assoc, ← List.append_assoc]
          exact List.perm_append_comm.append (List.Perm.refl _)
        exact h1.trans (hih.append_left g')

/-- If a pass with positive room takes nothing, every group was empty. -/
theorem rrPass_nil_flatten : ∀ (gs : List (List EvidenceSpan)) (room : Nat),
    0 < room → (rrPass gs room).1 = [] → gs.flatten = [] := by
  intro gs
  induction gs with
  | nil => intro room _ _; rfl
  | cons g rest ih =>
    intro room hroom ht
    cases room with
    | zero => exact absurd hroom (by omega)
    | succ r =>
      cases g with
      | nil =>
        have heq : (rrPass ([] :: rest) (r + 1)).1 = (rrPass rest (r + 1)).1 := by
          rcases hp : rrPass rest (r + 1) with ⟨t, gs'⟩
          simp [rrPass, hp]
        rw [heq] at ht
        simpa using ih (r + 1) (by omega) ht
      | cons s g' =>
        have heq : (rrPass ((s :: g') :: rest) (r + 1)).1 = s :: (rrPass rest r).1 := by
          rcases hp : rrPass rest r with ⟨t, gs'⟩
          simp [rrPass, hp]
        rw [heq] at ht
        exact absurd ht (List.cons_ne_nil s _)

/-- When the groups hold enough spans, the round-robin loop fills the cap
exactly (fuel at least `mx - acc.length + 1` suffices, as each iteration
takes at least one span). -/
theorem rrLoop_length_eq : ∀ (fuel : Nat) (gs : List (List EvidenceSpan))
    (acc : List EvidenceSpan) (mx : Nat),
    acc.length ≤ mx → mx ≤ acc.length + gs.flatten.length →
    mx ≤ fuel + acc.length →
    (rrLoop fuel gs acc mx).length = mx := by
  intro fuel
  induction fuel with
  | zero =>
    intro gs acc mx h1 h2 h3
    simp only [rrLoop]
    omega
  | succ n ih =>
    intro gs acc mx h1 h2 h3
    simp only [rrLoop]
    split
    · rename_i hfull
      omega
    · rename_i hlt
      rcases hp : rrPass gs (mx - acc.length) with ⟨t, gs'⟩
      have hperm := rrPass_perm gs (mx - acc.length)
      rw [hp] at hperm
      have hsum : t.length + gs'.flatten.length = gs.flatten.length := by
        have := hperm.length_eq
        simpa using this
      have ht : t.length ≤ mx - acc.length := by
        have := rrPass_take_le gs (mx - acc.length)
        rw [hp] at this
        simpa using this
      simp only [hp]
      split
      · rename_i htnil
        have hflat : gs.flatten = [] := by
          apply rrPass_nil_flatten gs (mx - acc.length) (by omega)
          rw [hp]
          simpa using htnil
        rw [hflat] at h2
        simp at h2
        omega
      · rename_i htne
        have htpos : 0 < t.length := by
          cases t with
          | nil => simp at htne
          | cons a l => simp
        apply ih
        · rw [List.length_append]; omega
        · rw [List.length_append]; omega
        · rw [List.length_append]; omega

/-- The round-robin loop only appends spans drawn from the groups. -/
theorem rrLoop_extends : ∀ (fuel : Nat) (gs : List (List EvidenceSpan))
    (acc : List EvidenceSpan) (mx : Nat),
    ∃ r : List EvidenceSpan, rrLoop fuel gs acc mx = acc ++ r ∧
      (↑r : Multiset EvidenceSpan) ≤ (↑gs.flatten : Multiset EvidenceSpan) := by
  intro fuel
  induction fuel with
  | zero =>
    intro gs acc mx
    exact ⟨[], by simp [rrLoop], by simp⟩
  | succ n ih =>
    intro gs acc mx
    simp only [rrLoop]
    split
    · exact ⟨[], by simp, by simp⟩
    · rcases hp : rrPass gs (mx - acc.length) with ⟨t, gs'⟩
      have hperm := rrPass_perm gs (mx - acc.length)
      rw [hp] at hperm
      have hmeq : (↑(t ++ gs'.flatten) : Multiset EvidenceSpan) = ↑gs.flatten := by
        exact Multiset.coe_eq_coe.mpr (by simpa using hperm)
      simp only [hp]
      split
      · exact ⟨[], by simp, by simp⟩
      · obtain ⟨r', hr', hle'⟩ := ih gs' (acc ++ t) mx
        refine ⟨t ++ r', by rw [hr', List.append_assoc], ?_⟩
        have : (↑(t ++ r') : Multiset EvidenceSpan) = ↑t + ↑r' := by
          simp [Multiset.coe_add]
        rw [this, ← hmeq]
        have : (↑(t ++ gs'.flatten) : Multiset EvidenceSpan) = ↑t + ↑gs'.flatten := by
          simp [Multiset.coe_add]
        rw [this]
        exact add_le_add_left hle' _

/-- Splitting a list by a nodup covering list of keys and flattening
permutes the original list. -/
theorem filter_keys_flatten_perm (keys : List String) :
    ∀ l : List EvidenceSpan, keys.Nodup → (∀ s ∈ l, docKey s ∈ keys) →
      ((keys.map fun d => l.filter fun s => docKey s == d).flatten).Perm l := by
  induction keys with
  | nil =>
    intro l _ hall
    have : l = [] := by
      cases l with
      | nil => rfl
      | cons s r => exact absurd (hall s (List.mem_cons_self s r)) (List.not_mem_nil _)
    subst this
    simp
  | cons d ks ih =>
    intro l hnd hall
    have hnd' := List.nodup_cons.mp hnd
    have hrest : (ks.map fun d' => l.filter fun s => docKey s == d') =
        ks.map fun d' => (l.filter fun s => !(docKey s == d)).filter fun s => docKey s == d' := by
      apply List.map_congr_left
      intro d' hd'
      rw [List.filter_filter]
      apply List.filter_congr
      intro s _
      by_cases hc : docKey s = d'
      · have hdd : ¬ d' = d := fun hcc => hnd'.1 (hcc ▸ hd')
        simp [hc, hdd]
      · simp [hc]
    simp only [List.map_cons, List.flatten_cons]
    rw [hrest]
    have hih := ih (l.filter fun s => !(docKey s == d)) hnd'.2 ?_
    · exact (hih.append_left _).trans (List.filter_append_perm _ l)
    · intro s hs
      have hmem := List.mem_filter.mp hs
      have hk := hall s hmem.1
      rcases List.mem_cons.mp hk with hk | hk
      · exfalso
        have h2 := hmem.2
        rw [hk] at h2
        simp at h2
      · exact hk

/-- First-occurrence lists are nodup and avoid the seen set. -/
theorem firstOccurrences_nodup : ∀ (l seen : List String),
    (firstOccurrences l seen).Nodup ∧ ∀ x ∈ firstOccurrences l seen, x ∉ seen := by
  intro l
  induction l with
  | nil => intro seen; exact ⟨List.nodup_nil, by intro x hx; cases hx⟩
  | cons y rest ih =>
    intro seen
    by_cases hc : y ∈ seen
    · have hred : firstOccurrences (y :: rest) seen = firstOccurrences rest seen := by
        simp [firstOccurrences, hc]
      rw [hred]
      exact ih seen
    · obtain ⟨ihnd, ihns⟩ := ih (y :: seen)
      have hred : firstOccurrences (y :: rest) seen =
          y :: firstOccurrences rest (y :: seen) := by
        simp [firstOccurrences, hc]
      rw [hred]
      constructor
      · rw [List.nodup_cons]
        refine ⟨?_, ihnd⟩
        intro hmem
        exact (ihns y hmem) (List.mem_cons_self y seen)
      · intro x hx
        rcases List.mem_cons.mp hx with hx | hx
        · exact hx ▸ hc
        · intro hmem
          exact (ihns x hx) (List.mem_cons_of_mem y hmem)

/-- Every unseen element of the input appears in its first-occurrence
list. -/
theorem firstOccurrences_complete : ∀ (l seen : List String) (x : String),
    x ∈ l → x ∉ seen → x ∈ firstOccurrences l seen := by
  intro l
  induction l with
  | nil => intro seen x hx; cases hx
  | cons y rest ih =>
    intro seen x hx hns
    by_cases hc : y ∈ seen
    · have hred : firstOccurrences (y :: rest) seen = firstOccurrences rest seen := by
        simp [firstOccurrences, hc]
      have hxy : x ∈ rest := by
        rcases List.mem_cons.mp hx with hx1 | hx1
        · subst hx1
          exact absurd hc hns
        · exact hx1
      rw [hred]
      exact ih seen x hxy hns
    · have hred : firstOccurrences (y :: rest) seen =
          y :: firstOccurrences rest (y :: seen) := by
        simp [firstOccurrences, hc]
      rw [hred]
      rcases List.mem_cons.mp hx with hx1 | hx1
      · exact hx1 ▸ List.mem_cons_self y _
      · by_cases hxy : x = y
        · exact hxy ▸ List.mem_cons_self y _
        · refine List.mem_cons_of_mem y (ih (y :: seen) x hx1 ?_)
          intro hmem
          rcases List.mem_cons.mp hmem with h | h
          · exact hxy h
          · exact hns h

/-- Grouping by document and flattening permutes the spans. -/
theorem groupByDoc_flatten_perm (l : List EvidenceSpan) :
    ((groupByDoc l).flatten).Perm l := by
  apply filter_keys_flatten_perm
  · exact (firstOccurrences_nodup (l.map docKey) []).1
  · intro s hs
    exact firstOccurrences_complete (l.map docKey) [] (docKey s)
      (List.mem_map_of_mem docKey hs) (List.not_mem_nil _)

/-- Stable insertion permutes a cons. -/
theorem insertByPage_perm (x : EvidenceSpan) :
    ∀ l : List EvidenceSpan, (insertByPage x l).Perm (x :: l) := by
  intro l
  induction l with
  | nil => simp [insertByPage]
  | cons y ys ih =>
    simp only [insertByPage]
    split
    · exact List.Perm.refl _
    · exact (ih.cons y).trans (List.Perm.swap x y ys)

/-- The page sort permutes its input. -/
theorem sortByPage_perm (l : List EvidenceSpan) : (sortByPage l).Perm l := by
  induction l with
  | nil => simp [sortByPage]
  | cons y ys ih =>
    simp only [sortByPage, List.foldr_cons]
    exact (insertByPage_perm y _).trans (List.Perm.cons y ih)

/-- Sorting every group keeps the flattened multiset. -/
theorem flatten_map_sort_perm (gs : List (List EvidenceSpan)) :
    ((gs.map sortByPage).flatten).Perm gs.flatten := by
  induction gs with
  | nil => simp
  | cons g rest ih =>
    simp only [List.map_cons, List.flatten_cons]
    exact (sortByPage_perm g).append ih

/-! ### Claim C5 -/

/-- Claim C5: on a set of unique evidence spans — pairwise-distinct,
non-blank trimmed quotes, which is the function's own uniqueness
criterion — numbering more than 5, the cap pass returns exactly 5 spans,
no two of which share the same quote; the selection groups by source
document, sorts by page and round-robins across the groups
(`capEvidenceSpansWorker`). -/
theorem evidence_cap_five (spans : List EvidenceSpan)
    (hnd : (spans.map fun s => jsTrim s.quote).Nodup)
    (hne : ∀ s ∈ spans, jsTrim s.quote ≠ "")
    (hgt : 5 < spans.length) :
    (capEvidenceSpansWorker spans 5).length = 5 ∧
      ((capEvidenceSpansWorker spans 5).map (fun s => s.quote)).Nodup := by
  have hid : dedupSpansAux spans [] = spans :=
    dedupSpansAux_id spans [] hnd hne (fun s _ => List.not_mem_nil _)
  have hbranch : capEvidenceSpansWorker spans 5 =
      rrLoop 6 ((groupByDoc spans).map sortByPage) [] 5 := by
    show (if (dedupSpansAux spans []).length ≤ 5 then dedupSpansAux spans []
          else rrLoop 6 ((groupByDoc (dedupSpansAux spans [])).map sortByPage) [] 5) =
        rrLoop 6 ((groupByDoc spans).map sortByPage) [] 5
    rw [hid, if_neg (by omega)]
  have hperm : ((groupByDoc spans).map sortByPage).flatten.Perm spans :=
    (flatten_map_sort_perm _).trans (groupByDoc_flatten_perm spans)
  have hlen : ((groupByDoc spans).map sortByPage).flatten.length = spans.length :=
    hperm.length_eq
  rw [hbranch]
  constructor
  · exact rrLoop_length_eq 6 _ [] 5 (by simp) (by simp [hlen]; omega) (by simp)
  · obtain ⟨r, hr, hle⟩ := rrLoop_extends 6 ((groupByDoc spans).map sortByPage) [] 5
    rw [hr, List.nil_append]
    have hcoe : (↑((groupByDoc spans).map sortByPage).flatten : Multiset EvidenceSpan) =
        ↑spans := Multiset.coe_eq_coe.mpr hperm
    have hle2 : (↑(r.map fun s => jsTrim s.quote) : Multiset String) ≤
        ↑(spans.map fun s => jsTrim s.quote) := by
      have h1 := Multiset.map_le_map (f := fun s => jsTrim s.quote) hle
      rw [hcoe] at h1
      exact h1
    have hnd2 : (r.map fun s => jsTrim s.quote).Nodup := by
      have hsnd : Multiset.Nodup (↑(spans.map fun s => jsTrim s.quote) : Multiset String) :=
        Multiset.coe_nodup.mpr hnd
      exact Multiset.coe_nodup.mp (Multiset.nodup_of_le hle2 hsnd)
    have hmapped : ((r.map fun s => s.quote).map jsTrim).Nodup := by
      rw [List.map_map]
      exact hnd2
    exact List.Nodup.of_map jsTrim hmapped

/-- Witness for C5 at a concrete input: eight spans with distinct quotes
across three documents cap to exactly five spans with pairwise-distinct
quotes. -/
theorem evidence_cap_five_witness :
    (let spans : List EvidenceSpan :=
      [ { document_id := "d1", page := 1, quote := "q1" },
        { document_id := "d1", page := 2, quote := "q2" },
        { document_id := "d1", page := 3, quote := "q3" },
        { document_id := "d2", page := 1, quote := "q4" },
        { document_id := "d2", page := 2, quote := "q5" },
        { document_id := "d2", page := 3, quote := "q6" },
        { document_id := "d3", page := 1, quote := "q7" },
        { document_id := "d3", page := 2, quote := "q8" } ]
     (capEvidenceSpansWorker spans 5).length = 5 ∧
       ((capEvidenceSpansWorker spans 5).map (fun s => s.quote)).Nodup) := by
  intro spans
  exact evidence_cap_five spans (by decide) (by decide) (by decide)

/-! ### Claim C4 -/

/-- Full characterization of the selection loop: either no eligible
reference was seen and the incoming best survives, or the result splits
the list with every earlier eligible reference strictly farther and every
later one no nearer. -/
theorem selectNearestAux_spec (qpos : Nat) :
    ∀ (l : List ClauseRef) (b : Option ClauseRef),
      (∀ x, b = some x → x.position ≤ qpos) →
      ((selectNearestAux qpos b l = b ∧
        ∀ x ∈ l, x.position ≤ qpos →
          ∃ y, b = some y ∧ qpos - y.position ≤ qpos - x.position) ∨
      (∃ l₁ r l₂, l = l₁ ++ r :: l₂ ∧ selectNearestAux qpos b l = some r ∧
        r.position ≤ qpos ∧
        (∀ y, b = some y → qpos - r.position < qpos - y.position) ∧
        (∀ x ∈ l₁, x.position ≤ qpos → qpos - r.position < qpos - x.position) ∧
        (∀ x ∈ l₂, x.position ≤ qpos → qpos - r.position ≤ qpos - x.position))) := by
  intro l
  induction l with
  | nil =>
    intro b hb
    left
    exact ⟨rfl, fun x hx => absurd hx (List.not_mem_nil x)⟩
  | cons r rest ih =>
    intro b hb
    by_cases hre : r.position ≤ qpos
    · cases b with
      | none =>
        have hnone : selectNearestAux qpos none (r :: rest) =
            if r.position ≤ qpos then selectNearestAux qpos (some r) rest
            else selectNearestAux qpos none rest := rfl
        rw [hnone, if_pos hre]
        rcases ih (some r) (fun x hx => by cases hx; exact hre) with
          ⟨heq, hall⟩ | ⟨l₁, r', l₂, hsplit, heq, hle, hbeats, hl₁, hl₂⟩
        · right
          refine ⟨[], r, rest, by simp, heq, hre, ?_, ?_, ?_⟩
          · intro y hy; cases hy
          · intro x hx; cases hx
          · intro x hx hxe
            obtain ⟨y, hy, hyle⟩ := hall x hx hxe
            cases hy
            exact hyle
        · right
          refine ⟨r :: l₁, r', l₂, by rw [hsplit]; rfl, heq, hle, ?_, ?_, hl₂⟩
          · intro y hy; cases hy
          · intro x hx hxe
            rcases List.mem_cons.mp hx with hx1 | hx1
            · subst hx1; exact hbeats x rfl
            · exact hl₁ x hx1 hxe
      | some b₀ =>
        have hsome : selectNearestAux qpos (some b₀) (r :: rest) =
            if r.position ≤ qpos then
              (if qpos - r.position < qpos - b₀.position then
                selectNearestAux qpos (some r) rest
              else selectNearestAux qpos (some b₀) rest)
            else selectNearestAux qpos (some b₀) rest := rfl
        rw [hsome, if_pos hre]
        by_cases hcl : qpos - r.position < qpos - b₀.position
        · rw [if_pos hcl]
          rcases ih (some r) (fun x hx => by cases hx; exact hre) with
            ⟨heq, hall⟩ | ⟨l₁, r', l₂, hsplit, heq, hle, hbeats, hl₁, hl₂⟩
          · right
            refine ⟨[], r, rest, by simp, heq, hre, ?_, ?_, ?_⟩
            · intro y hy
              cases hy
              exact hcl
            · intro x hx; cases hx
            · intro x hx hxe
              obtain ⟨y, hy, hyle⟩ := hall x hx hxe
              cases hy
              exact hyle
          · right
            refine ⟨r :: l₁, r', l₂, by rw [hsplit]; rfl, heq, hle, ?_, ?_, hl₂⟩
            · intro y hy
              cases hy
              exact lt_trans (hbeats r rfl) hcl
            · intro x hx hxe
              rcases List.mem_cons.mp hx with hx1 | hx1
              · subst hx1; exact hbeats x rfl
              · exact hl₁ x hx1 hxe
        · rw [if_neg hcl]
          rcases ih (some b₀) hb with
            ⟨heq, hall⟩ | ⟨l₁, r', l₂, hsplit, heq, hle, hbeats, hl₁, hl₂⟩
          · left
            refine ⟨heq, ?_⟩
            intro x hx hxe
            rcases List.mem_cons.mp hx with hx1 | hx1
            · subst hx1
              exact ⟨b₀, rfl, Nat.le_of_not_lt hcl⟩
            · exact hall x hx1 hxe
          · right
            refine ⟨r :: l₁, r', l₂, by rw [hsplit]; rfl, heq, hle, hbeats, ?_, hl₂⟩
            intro x hx hxe
            rcases List.mem_cons.mp hx with hx1 | hx1
            · subst hx1
              exact lt_of_lt_of_le (hbeats b₀ rfl) (Nat.le_of_not_lt hcl)
            · exact hl₁ x hx1 hxe
    · have hstep : selectNearestAux qpos b (r :: rest) = selectNearestAux qpos b rest := by
        cases b with
        | none =>
          have hnone : selectNearestAux qpos none (r :: rest) =
              if r.position ≤ qpos then selectNearestAux qpos (some r) rest
              else selectNearestAux qpos none rest := rfl
          rw [hnone, if_neg hre]
        | some b₀ =>
          have hsome : selectNearestAux qpos (some b₀) (r :: rest) =
              if r.position ≤ qpos then
                (if qpos - r.position < qpos - b₀.position then
                  selectNearestAux qpos (some r) rest
                else selectNearestAux qpos (some b₀) rest)
              else selectNearestAux qpos (some b₀) rest := rfl
          rw [hsome, if_neg hre]
      rw [hstep]
      rcases ih b hb with
        ⟨heq, hall⟩ | ⟨l₁, r', l₂, hsplit, heq, hle, hbeats, hl₁, hl₂⟩
      · left
        refine ⟨heq, ?_⟩
        intro x hx hxe
        rcases List.mem_cons.mp hx with hx1 | hx1
        · subst hx1; exact absurd hxe hre
        · exact hall x hx1 hxe
      · right
        refine ⟨r :: l₁, r', l₂, by rw [hsplit]; rfl, heq, hle, hbeats, ?_, hl₂⟩
        intro x hx hxe
        rcases List.mem_cons.mp hx with hx1 | hx1
        · subst hx1; exact absurd hxe hre
        · exact hl₁ x hx1 hxe

set_option maxRecDepth 100000 in
/-- Claim C4: for every text and quote occurring in it, the nearest-clause
resolution picks, among the clause references at or before the quote's
first-occurrence offset, the one minimizing `offset - position` — every
earlier reference in the (stably sorted) list that is eligible lies
strictly farther, which is the earliest-found tie-break — and some
eligible reference always yields a result; in particular, for the
scenario text with references at positions 5, 40 and 120 and the quote at
offset 100, it resolves to the reference at position 40. -/
theorem nearest_clause_selection :
    (∀ (text quote : String) (qpos : Nat), text ≠ "" → quote ≠ "" →
      jsIndexOf text quote = some qpos →
      (∀ r, findNearestClause text quote = some r →
        r ∈ extractClauseReferences text ∧ r.position ≤ qpos ∧
        (∀ x ∈ extractClauseReferences text, x.position ≤ qpos →
          qpos - r.position ≤ qpos - x.position) ∧
        ∃ l₁ l₂, extractClauseReferences text = l₁ ++ r :: l₂ ∧
          ∀ x ∈ l₁, x.position ≤ qpos → qpos - r.position < qpos - x.position) ∧
      ((∃ x ∈ extractClauseReferences text, x.position ≤ qpos) →
        ∃ r, findNearestClause text quote = some r)) ∧
    ((extractClauseReferences scenarioTextC4).map (fun r => r.position) =
        [5, 40, 120] ∧
      (findNearestClause scenarioTextC4 "QZQZ").map (fun r => r.position) =
        some 40) := by
  refine ⟨?_, by decide, by decide⟩
  intro text quote qpos htext hquote hidx
  have hne : (text = "" || quote = "") = false := by
    simp [htext, hquote]
  have hfind : findNearestClause text quote =
      (if (extractClauseReferences text).isEmpty then none
       else selectNearestAux qpos none (extractClauseReferences text)) := by
    unfold findNearestClause
    rw [hne]
    simp only [Bool.false_eq_true, if_false, hidx]
  rcases selectNearestAux_spec qpos (extractClauseReferences text) none
      (fun x hx => by cases hx) with
    ⟨heq, _⟩ | ⟨l₁, r', l₂, hsplit, heq, hle, _, hl₁, hl₂⟩
  · constructor
    · intro r hr
      rw [hfind] at hr
      split at hr
      · cases hr
      · rw [heq] at hr
        cases hr
    · rintro ⟨x, hx, hxe⟩
      exfalso
      rcases selectNearestAux_spec qpos (extractClauseReferences text) none
          (fun y hy => by cases hy) with ⟨_, hall⟩ | ⟨l₁, r', l₂, _, heq2, _, _, _, _⟩
      · obtain ⟨y, hy, _⟩ := hall x hx hxe
        cases hy
      · rw [heq] at heq2
        cases heq2
  · constructor
    · intro r hr
      rw [hfind] at hr
      have hnotempty : (extractClauseReferences text).isEmpty = false := by
        rw [hsplit]
        cases l₁ <;> simp
      rw [hnotempty] at hr
      simp only [Bool.false_eq_true, if_false] at hr
      rw [heq] at hr
      cases hr
      refine ⟨?_, hle, ?_, l₁, l₂, hsplit, hl₁⟩
      · rw [hsplit]
        exact List.mem_append.mpr (Or.inr (List.mem_cons_self _ _))
      · intro x hx hxe
        rw [hsplit] at hx
        rcases List.mem_append.mp hx with hx1 | hx1
        · exact le_of_lt (hl₁ x hx1 hxe)
        · rcases List.mem_cons.mp hx1 with hx2 | hx2
          · subst hx2; exact le_refl _
          · exact hl₂ x hx2 hxe
    · intro _
      refine ⟨r', ?_⟩
      rw [hfind]
      have hnotempty : (extractClauseReferences text).isEmpty = false := by
        rw [hsplit]
        cases l₁ <;> simp
      rw [hnotempty]
      simp only [Bool.false_eq_true, if_false]
      exact heq

set_option maxRecDepth 100000 in
/-- Witness for C4's general part at a concrete input: applied to the
scenario text and quote, discharging the occurrence hypothesis, it yields
the minimality facts there. -/
theorem nearest_clause_selection_witness :
    ∀ r, findNearestClause scenarioTextC4 "QZQZ" = some r →
      r ∈ extractClauseReferences scenarioTextC4 ∧ r.position ≤ 100 ∧
      (∀ x ∈ extractClauseReferences scenarioTextC4, x.position ≤ 100 →
        100 - r.position ≤ 100 - x.position) ∧
      ∃ l₁ l₂, extractClauseReferences scenarioTextC4 = l₁ ++ r :: l₂ ∧
        ∀ x ∈ l₁, x.position ≤ 100 → 100 - r.position < 100 - x.position :=
  (nearest_clause_selection.1 scenarioTextC4 "QZQZ" 100
    (by decide) (by decide) (by decide)).1

/-! ### Claim C3 -/

/-- Counterexample to claim C3 as stated: this chunk passes the
harvester's rights filter (so it yields a benefit in a run with no
schedule document), yet its amounts after harvesting and normalization is
the empty object — no `value_state` field at all, in particular not
`unknown_schedule_required` — because the chunk and its summary contain
no currency/amount reference, and `extractBenefits` only attaches an
amounts object when `hasAmountReference` holds. -/
theorem schedule_gating_counterexample :
    chunkYieldsBenefit scenarioChunkC3 = true ∧
    pipelineAmounts scenarioChunkC3 false = none := by
  exact ⟨by decide, by decide⟩

/-- Claim C3 amended: with no schedule document in the run, a benefit's
amounts never carries state `known` and never carries values — it is
either the empty object (when neither the chunk nor its summary
references an amount) or `unknown_schedule_required` with an empty value
list; whenever the chunk does reference an amount it is the latter. -/
theorem schedule_gating_pipeline (paragraph : String) :
    (pipelineAmounts paragraph false = none ∨
      pipelineAmounts paragraph false =
        some { value_state := ValueState.unknown_schedule_required, values := [] }) ∧
    (hasAmountReference paragraph = true →
      pipelineAmounts paragraph false =
        some { value_state := ValueState.unknown_schedule_required, values := [] }) := by
  have hext : ∀ t : String, extractAmounts t false =
      { value_state := ValueState.unknown_schedule_required, values := [] } := by
    intro t
    simp [extractAmounts]
  constructor
  · unfold pipelineAmounts normalizeAmounts extractBenefitsAmounts
    by_cases h1 : hasAmountReference (generateBenefitSummary paragraph) = true
    · right
      simp [h1]
    · rw [Bool.not_eq_true] at h1
      by_cases h2 : hasAmountReference paragraph = true
      · right
        simp [h1, h2, hext]
      · rw [Bool.not_eq_true] at h2
        left
        simp [h1, h2]
  · intro h2
    unfold pipelineAmounts normalizeAmounts extractBenefitsAmounts
    by_cases h1 : hasAmountReference (generateBenefitSummary paragraph) = true
    · simp [h1]
    · rw [Bool.not_eq_true] at h1
      simp [h1, h2, hext]

/-- Witness for C3's amended claim at a concrete input: a chunk carrying
an amount keyword and numerals still surfaces no value with no schedule
present. -/
theorem schedule_gating_pipeline_witness :
    pipelineAmounts "Reimbursement up to 2,000 ILS per year for dental care." false =
      some { value_state := ValueState.unknown_schedule_required, values := [] } :=
  (schedule_gating_pipeline
    "Reimbursement up to 2,000 ILS per year for dental care.").2 (by decide)

end InsuranceWorker
